import Mathlib

set_option linter.unusedVariables false

/-!
Shallow embedding of `src/server.py` (OpenAlex MCP server).

Python values are modelled by `Val`; Python dictionaries by insertion-ordered
association lists `List (String × Val)` (keys unique in practice; lookups take
the first match, exactly as a dict with unique keys behaves).  Python `None`
is `Val.null`.  Fallible Python code (exceptions) is modelled with
`Except String`.  The external pyalex dataset client is modelled as a record
of functions returning `Except` values, universally quantified in theorems, so
that every client behaviour — including raising — is covered.
-/

namespace OpenAlex

/-- JSON-like values manipulated by the server (Python objects). -/
inductive Val where
  | null : Val
  | str : String → Val
  | nat : Nat → Val
  | arr : List Val → Val
  | obj : List (String × Val) → Val
  deriving Repr

/-- Python dict lookup `d[k]` / `d.get(k)` as an `Option` (first matching key). -/
def dget (d : List (String × Val)) (k : String) : Option Val :=
  match d with
  | [] => none
  | (k', v) :: rest => if k' = k then some v else dget rest k

/-- Python `d.get(k, default)`. -/
def dgetD (d : List (String × Val)) (k : String) (dflt : Val) : Val :=
  (dget d k).getD dflt

/-- Python `k in d`. -/
def hasKey (d : List (String × Val)) (k : String) : Bool :=
  (dget d k).isSome

/-- Python `d[k] = v`: overwrite in place if the key exists, else append. -/
def dset (d : List (String × Val)) (k : String) (v : Val) : List (String × Val) :=
  match d with
  | [] => [(k, v)]
  | (k', v') :: rest => if k' = k then (k', v) :: rest else (k', v') :: dset rest k v

/-- Python `del d[k]` (removes the key; dicts hold each key once). -/
def ddel (d : List (String × Val)) (k : String) : List (String × Val) :=
  match d with
  | [] => []
  | (k', v') :: rest => if k' = k then ddel rest k else (k', v') :: ddel rest k

/-- Python truthiness of a value. -/
def truthy : Val → Bool
  | .null => false
  | .str s => !s.isEmpty
  | .nat n => n != 0
  | .arr l => !l.isEmpty
  | .obj l => !l.isEmpty

/-- Identifies Python `None`. -/
def Val.isNull : Val → Bool
  | .null => true
  | _ => false

@[simp] theorem dget_nil (k : String) : dget [] k = none := rfl

@[simp] theorem dget_cons (k' : String) (v : Val) (rest : List (String × Val)) (k : String) :
    dget ((k', v) :: rest) k = if k' = k then some v else dget rest k := rfl

theorem dget_dset_self (d : List (String × Val)) (k : String) (v : Val) :
    dget (dset d k v) k = some v := by
  induction d with
  | nil => simp [dset]
  | cons hd tl ih =>
      obtain ⟨k', v'⟩ := hd
      by_cases h : k' = k <;> simp [dset, h, ih]

theorem dget_dset_ne (d : List (String × Val)) (k k' : String) (v : Val) (h : k ≠ k') :
    dget (dset d k v) k' = dget d k' := by
  induction d with
  | nil => simp [dset, h]
  | cons hd tl ih =>
      obtain ⟨k₀, v₀⟩ := hd
      by_cases h0 : k₀ = k
      · subst h0
        simp [dset, h]
      · simp [dset, h0, ih]

theorem dget_ddel_self (d : List (String × Val)) (k : String) :
    dget (ddel d k) k = none := by
  induction d with
  | nil => simp [ddel]
  | cons hd tl ih =>
      obtain ⟨k₀, v₀⟩ := hd
      by_cases h0 : k₀ = k <;> simp [ddel, h0, ih]

theorem dget_ddel_ne (d : List (String × Val)) (k k' : String) (h : k ≠ k') :
    dget (ddel d k) k' = dget d k' := by
  induction d with
  | nil => simp [ddel]
  | cons hd tl ih =>
      obtain ⟨k₀, v₀⟩ := hd
      by_cases h0 : k₀ = k
      · subst h0
        have h1 : k₀ ≠ k' := h
        simp [ddel, h1, ih]
      · simp [ddel, h0, ih]

/-- The key-keeping predicate of `_select_fields`: `k ∈ set(fields) | {id, doi}`. -/
def keepField (fields : List String) (k : String) : Bool :=
  fields.contains k || k == "id" || k == "doi"

/-- `server.py` `_select_fields`: keep the keys in `fields ∪ {id, doi}`. -/
def selectFields (item : List (String × Val)) (fields : List String) : List (String × Val) :=
  item.filter (fun kv => keepField fields kv.1)

theorem dget_filter_key (p : String → Bool) (d : List (String × Val)) (k : String) :
    dget (d.filter (fun kv => p kv.1)) k = if p k then dget d k else none := by
  induction d with
  | nil => by_cases hp : p k <;> simp [hp]
  | cons hd tl ih =>
      obtain ⟨k₀, v₀⟩ := hd
      by_cases h0 : k₀ = k
      · subst h0
        by_cases hp : p k₀ <;> simp [List.filter_cons, hp, ih]
      · by_cases hp : p k₀ <;> simp [List.filter_cons, hp, h0, ih]

theorem dget_selectFields (item : List (String × Val)) (fields : List String) (k : String) :
    dget (selectFields item fields) k =
      if keepField fields k then dget item k else none :=
  dget_filter_key (keepField fields) item k

/-!
Abstract reconstruction (the fallback in `get_batch_work_details`,
`server.py` lines 465-475):

    words = []
    for word, positions in inverted_index.items():
        for pos in positions:
            while len(words) <= pos:
                words.append("")
            words[pos] = word
    generated_abstract = " ".join(words)
-/

/-- The `while len(words) <= pos: words.append("")` loop followed by
`words[pos] = word`. -/
def placeWord (words : List String) (pos : Nat) (word : String) : List String :=
  (words ++ List.replicate (pos + 1 - words.length) "").set pos word

/-- The inner `for pos in positions` loop. -/
def placeAll (words : List String) (word : String) (ps : List Nat) : List String :=
  ps.foldl (fun ws p => placeWord ws p word) words

/-- The outer `for word, positions in inverted_index.items()` loop. -/
def reconstructWords (index : List (String × List Nat)) : List String :=
  index.foldl (fun ws e => placeAll ws e.1 e.2) []

/-- `" ".join(words)`. -/
def reconstructAbstract (index : List (String × List Nat)) : String :=
  String.intercalate " " (reconstructWords index)

/-- The spec's invariant on an inverted index: every position is claimed by at
most one word (positions cover the abstract injectively). -/
def coversInjectively (index : List (String × List Nat)) : Prop :=
  ∀ e₁ ∈ index, ∀ e₂ ∈ index, ∀ p ∈ e₁.2, p ∈ e₂.2 → e₁.1 = e₂.1

instance (index : List (String × List Nat)) : Decidable (coversInjectively index) := by
  unfold coversInjectively
  infer_instance

theorem getD_replicate_empty (k q : Nat) : (List.replicate k "").getD q "" = "" := by
  induction k generalizing q with
  | zero => simp [List.getD_nil]
  | succ n ih =>
      rw [List.replicate_succ]
      cases q with
      | zero => rfl
      | succ m => rw [List.getD_cons_succ]; exact ih m

theorem getD_append_pad (ws : List String) (k q : Nat) :
    (ws ++ List.replicate k "").getD q "" = ws.getD q "" := by
  induction ws generalizing q with
  | nil => rw [List.nil_append, List.getD_nil]; exact getD_replicate_empty k q
  | cons a tl ih =>
      rw [List.cons_append]
      cases q with
      | zero => rfl
      | succ m => rw [List.getD_cons_succ, List.getD_cons_succ]; exact ih m

theorem length_pad_ge (ws : List String) (p : Nat) :
    p < (ws ++ List.replicate (p + 1 - ws.length) "").length := by
  simp [List.length_append]
  omega

theorem getD_set_self (l : List String) (p : Nat) (w : String) (h : p < l.length) :
    (l.set p w).getD p "" = w := by
  induction l generalizing p with
  | nil => simp at h
  | cons a tl ih =>
      cases p with
      | zero => rfl
      | succ n =>
          rw [List.set_cons_succ, List.getD_cons_succ]
          exact ih n (by simpa using h)

theorem getD_set_ne (l : List String) (p q : Nat) (w : String) (h : p ≠ q) :
    (l.set p w).getD q "" = l.getD q "" := by
  induction l generalizing p q with
  | nil => simp [List.set]
  | cons a tl ih =>
      cases p with
      | zero =>
          cases q with
          | zero => exact absurd rfl h
          | succ m => rfl
      | succ n =>
          cases q with
          | zero => rfl
          | succ m =>
              rw [List.set_cons_succ, List.getD_cons_succ, List.getD_cons_succ]
              exact ih n m (by omega)

theorem getD_placeWord_self (ws : List String) (p : Nat) (w : String) :
    (placeWord ws p w).getD p "" = w :=
  getD_set_self _ p w (length_pad_ge ws p)

theorem getD_placeWord_ne (ws : List String) (p q : Nat) (w : String) (h : p ≠ q) :
    (placeWord ws p w).getD q "" = ws.getD q "" := by
  unfold placeWord
  rw [getD_set_ne _ p q w h, getD_append_pad]

/-- The flattened sequence of `(word, position)` assignments performed by the
nested loops, in execution order. -/
def indexWrites : List (String × List Nat) → List (String × Nat)
  | [] => []
  | (w, ps) :: rest => ps.map (fun p => (w, p)) ++ indexWrites rest

/-- Replay a flattened assignment sequence. -/
def applyWrites (ws : List String) : List (String × Nat) → List String
  | [] => ws
  | (w, p) :: rest => applyWrites (placeWord ws p w) rest

theorem applyWrites_append (ws : List String) (l₁ l₂ : List (String × Nat)) :
    applyWrites ws (l₁ ++ l₂) = applyWrites (applyWrites ws l₁) l₂ := by
  induction l₁ generalizing ws with
  | nil => rfl
  | cons hd tl ih =>
      obtain ⟨w, p⟩ := hd
      simp [applyWrites, ih]

theorem placeAll_eq_applyWrites (ws : List String) (w : String) (ps : List Nat) :
    placeAll ws w ps = applyWrites ws (ps.map (fun p => (w, p))) := by
  induction ps generalizing ws with
  | nil => rfl
  | cons p tl ih =>
      simp only [placeAll, List.foldl, List.map, applyWrites] at ih ⊢
      exact ih _

theorem foldl_eq_applyWrites (index : List (String × List Nat)) (ws : List String) :
    index.foldl (fun a e => placeAll a e.1 e.2) ws = applyWrites ws (indexWrites index) := by
  induction index generalizing ws with
  | nil => rfl
  | cons hd tl ih =>
      obtain ⟨w, ps⟩ := hd
      simp only [List.foldl, indexWrites, applyWrites_append]
      rw [placeAll_eq_applyWrites, ih]

theorem reconstructWords_eq (index : List (String × List Nat)) :
    reconstructWords index = applyWrites [] (indexWrites index) :=
  foldl_eq_applyWrites index []

theorem applyWrites_getD_of_not_written (ws : List String) (l : List (String × Nat))
    (q : Nat) (h : ∀ wp ∈ l, wp.2 ≠ q) :
    (applyWrites ws l).getD q "" = ws.getD q "" := by
  induction l generalizing ws with
  | nil => rfl
  | cons hd tl ih =>
      obtain ⟨w, p⟩ := hd
      have hp : p ≠ q := h (w, p) (List.mem_cons_self _ _)
      rw [applyWrites, ih _ (fun wp hwp => h wp (List.mem_cons_of_mem _ hwp)),
        getD_placeWord_ne ws p q w hp]

theorem applyWrites_getD_of_written (ws : List String) (l : List (String × Nat))
    (q : Nat) (v : String)
    (hall : ∀ wp ∈ l, wp.2 = q → wp.1 = v)
    (hex : ∃ wp ∈ l, wp.2 = q) :
    (applyWrites ws l).getD q "" = v := by
  induction l generalizing ws with
  | nil => obtain ⟨wp, hwp, _⟩ := hex; exact absurd hwp (List.not_mem_nil wp)
  | cons hd tl ih =>
      obtain ⟨w, p⟩ := hd
      by_cases hrest : ∃ wp ∈ tl, wp.2 = q
      · exact ih _ (fun wp hwp => hall wp (List.mem_cons_of_mem _ hwp)) hrest
      · have hnone : ∀ wp ∈ tl, wp.2 ≠ q := by
          intro wp hwp hq
          exact hrest ⟨wp, hwp, hq⟩
        have hpq : p = q := by
          obtain ⟨wp, hwp, hq⟩ := hex
          rcases List.mem_cons.mp hwp with h1 | h1
          · rw [h1] at hq; exact hq
          · exact absurd hq (hnone wp h1)
        have hwv : w = v := hall (w, p) (List.mem_cons_self _ _) hpq
        rw [applyWrites, applyWrites_getD_of_not_written _ tl q hnone, hpq, hwv,
          getD_placeWord_self]

theorem mem_indexWrites (index : List (String × List Nat)) (w : String) (ps : List Nat)
    (p : Nat) (hmem : (w, ps) ∈ index) (hp : p ∈ ps) : (w, p) ∈ indexWrites index := by
  induction index with
  | nil => exact absurd hmem (List.not_mem_nil _)
  | cons hd tl ih =>
      obtain ⟨w', ps'⟩ := hd
      rcases List.mem_cons.mp hmem with h1 | h1
      · injection h1 with hw hps
        subst hw
        subst hps
        exact List.mem_append.mpr (Or.inl (List.mem_map.mpr ⟨p, hp, rfl⟩))
      · exact List.mem_append.mpr (Or.inr (ih h1))

theorem indexWrites_mem (index : List (String × List Nat)) (wp : String × Nat)
    (h : wp ∈ indexWrites index) : ∃ e ∈ index, wp.1 = e.1 ∧ wp.2 ∈ e.2 := by
  induction index with
  | nil => exact absurd h (List.not_mem_nil _)
  | cons hd tl ih =>
      obtain ⟨w', ps'⟩ := hd
      rcases List.mem_append.mp h with h1 | h1
      · obtain ⟨p, hp, hpe⟩ := List.mem_map.mp h1
        exact ⟨(w', ps'), List.mem_cons_self _ _, by rw [← hpe], by rw [← hpe]; exact hp⟩
      · obtain ⟨e, he, hh⟩ := ih h1
        exact ⟨e, List.mem_cons_of_mem _ he, hh⟩

/-!
The summarizer `_summarize_work` (`server.py` lines 103-148).  Python
attribute errors (calling `.get` on a non-dict value) and type errors
(iterating a non-iterable) are modelled with `Except String`.  The final
summary dict is built by iterating `keys_to_include`; Python iterates that
set in unspecified order, so the embedding fixes the insertion order of
`summary_data`, which is irrelevant to every claim (they are about key
presence and values).
-/

/-- Python `v.get(k, dflt)`: only dict values support `.get`. -/
def Val.pyGet : Val → String → Val → Except String Val
  | .obj d, k, dflt => .ok (dgetD d k dflt)
  | _, _, _ => .error "AttributeError"

/-- Python iteration `for x in v`: lists yield elements, dicts yield keys,
strings yield characters; other values raise `TypeError`. -/
def pyIter : Val → Except String (List Val)
  | .arr l => .ok l
  | .obj l => .ok (l.map (fun kv => Val.str kv.1))
  | .str s => .ok (s.toList.map (fun c => Val.str (String.mk [c])))
  | _ => .error "TypeError"

/-- `authorship.get("author", {}).get("display_name")`. -/
def authorName (a : Val) : Except String Val :=
  match a.pyGet "author" (.obj []) with
  | .error e => .error e
  | .ok au => au.pyGet "display_name" .null

/-- The comprehension collecting truthy author display names in order. -/
def collectNames : List Val → Except String (List Val)
  | [] => .ok []
  | a :: rest =>
      match authorName a with
      | .error e => .error e
      | .ok n =>
          match collectNames rest with
          | .error e => .error e
          | .ok ns => .ok (if truthy n then n :: ns else ns)

/-- The `elif work_dict.get("open_access", {}).get("oa_url")` branch. -/
def oaFallback (d : List (String × Val)) : Except String Val :=
  match (dgetD d "open_access" (.obj [])).pyGet "oa_url" .null with
  | .error e => .error e
  | .ok ou => .ok (if truthy ou then ou else .null)

/-- Best open-access URL: `best_oa_location.pdf_url` if truthy, else the
`open_access.oa_url` fallback, else `None`. -/
def oaUrl (d : List (String × Val)) : Except String Val :=
  match dgetD d "best_oa_location" .null with
  | .obj bd =>
      if truthy (.obj bd) then
        (if truthy (dgetD bd "pdf_url" .null) then .ok (dgetD bd "pdf_url" .null)
         else oaFallback d)
      else oaFallback d
  | .null => oaFallback d
  | v => if truthy v then .error "AttributeError" else oaFallback d

/-- `keys_to_include`: all summary keys when `select_fields is None`, else the
intersection with `select_fields`. -/
def includeKey : Option (List String) → String → Bool
  | none, _ => true
  | some l, k => l.contains k

/-- Assembles `summary_data` and applies the final
`{key: summary_data[key] for key in keys_to_include if summary_data[key] is not None}`
filter. -/
def mkSummary (d : List (String × Val)) (names : List Val) (venuev oav : Val)
    (fs : Option (List String)) : List (String × Val) :=
  ([("id", dgetD d "id" .null), ("doi", dgetD d "doi" .null),
    ("title", dgetD d "title" .null),
    ("publication_year", dgetD d "publication_year" .null),
    ("authors", .arr (names.take 6)),
    ("cited_by_count", dgetD d "cited_by_count" .null),
    ("venue", venuev), ("oa_url", oav),
    ("abstract", dgetD d "abstract" .null)]).filter
      (fun kv => includeKey fs kv.1 && !kv.2.isNull)

/-- `server.py` `_summarize_work`. -/
def summarizeWork (d : List (String × Val)) (fs : Option (List String)) :
    Except String (List (String × Val)) :=
  match pyIter (dgetD d "authorships" (.arr [])) with
  | .error e => .error e
  | .ok auths =>
      match collectNames auths with
      | .error e => .error e
      | .ok names =>
          match (dgetD d "primary_location" (.obj [])).pyGet "source" (.obj []) with
          | .error e => .error e
          | .ok venueSource =>
              match (if truthy venueSource then venueSource.pyGet "display_name" .null
                     else .ok .null) with
              | .error e => .error e
              | .ok venuev =>
                  match oaUrl d with
                  | .error e => .error e
                  | .ok oav => .ok (mkSummary d names venuev oav fs)

/-- Exception-threading `map` over a list (Python list comprehension). -/
def mapME {α β : Type} (f : α → Except String β) : List α → Except String (List β)
  | [] => .ok []
  | a :: l =>
      match f a with
      | .error e => .error e
      | .ok b =>
          match mapME f l with
          | .error e => .error e
          | .ok bs => .ok (b :: bs)

theorem mapME_ok_length {α β : Type} (f : α → Except String β) (l : List α)
    (r : List β) (h : mapME f l = .ok r) : r.length = l.length := by
  induction l generalizing r with
  | nil => cases h; rfl
  | cons a tl ih =>
      unfold mapME at h
      cases h1 : f a with
      | error e => rw [h1] at h; simp at h
      | ok b =>
          rw [h1] at h
          cases h2 : mapME f tl with
          | error e => rw [h2] at h; simp at h
          | ok bs =>
              rw [h2] at h
              simp only [Except.ok.injEq] at h
              subst h
              simp [ih bs h2]

theorem mapME_ok_mem {α β : Type} (f : α → Except String β) (l : List α)
    (r : List β) (h : mapME f l = .ok r) : ∀ b ∈ r, ∃ a ∈ l, f a = .ok b := by
  induction l generalizing r with
  | nil => cases h; intro b hb; exact absurd hb (List.not_mem_nil b)
  | cons a tl ih =>
      unfold mapME at h
      cases h1 : f a with
      | error e => rw [h1] at h; simp at h
      | ok b0 =>
          rw [h1] at h
          cases h2 : mapME f tl with
          | error e => rw [h2] at h; simp at h
          | ok bs =>
              rw [h2] at h
              simp only [Except.ok.injEq] at h
              subst h
              intro b hb
              rcases List.mem_cons.mp hb with hb1 | hb1
              · exact ⟨a, List.mem_cons_self _ _, hb1 ▸ h1⟩
              · obtain ⟨a', ha', hfa'⟩ := ih bs h2 b hb1
                exact ⟨a', List.mem_cons_of_mem _ ha', hfa'⟩

theorem collectNames_eq (l : List Val) (r : List Val) (h : collectNames l = .ok r) :
    ∃ raw, mapME authorName l = .ok raw ∧ r = raw.filter truthy := by
  induction l generalizing r with
  | nil => cases h; exact ⟨[], rfl, rfl⟩
  | cons a tl ih =>
      unfold collectNames at h
      cases h1 : authorName a with
      | error e => rw [h1] at h; simp at h
      | ok n =>
          rw [h1] at h
          cases h2 : collectNames tl with
          | error e => rw [h2] at h; simp at h
          | ok ns =>
              rw [h2] at h
              simp only [Except.ok.injEq] at h
              obtain ⟨raw, hraw, hfil⟩ := ih ns h2
              refine ⟨n :: raw, ?_, ?_⟩
              · unfold mapME
                rw [h1, hraw]
              · rw [← h, List.filter_cons, hfil]

theorem summarizeWork_ok_elim (d : List (String × Val)) (fs : Option (List String))
    (out : List (String × Val)) (h : summarizeWork d fs = .ok out) :
    ∃ auths names venuev oav,
      pyIter (dgetD d "authorships" (.arr [])) = .ok auths ∧
      collectNames auths = .ok names ∧
      out = mkSummary d names venuev oav fs := by
  unfold summarizeWork at h
  split at h
  · simp at h
  · rename_i auths heq1
    split at h
    · simp at h
    · rename_i names heq2
      split at h
      · simp at h
      · rename_i vs heq3
        split at h
        · simp at h
        · rename_i venuev heq4
          split at h
          · simp at h
          · rename_i oav heq5
            simp only [Except.ok.injEq] at h
            exact ⟨auths, names, venuev, oav, heq1, heq2, h.symm⟩

theorem dget_filter_cons_ne {p : String × Val → Bool} {k' : String} {v' : Val}
    {rest : List (String × Val)} {k : String} (h : k' ≠ k) :
    dget (List.filter p ((k', v') :: rest)) k = dget (List.filter p rest) k := by
  rw [List.filter_cons]
  by_cases hp : p (k', v') <;> simp [hp, h]

theorem dget_mkSummary_authors (d : List (String × Val)) (names : List Val)
    (venuev oav : Val) :
    dget (mkSummary d names venuev oav none) "authors"
      = some (.arr (names.take 6)) := by
  unfold mkSummary
  rw [dget_filter_cons_ne (by decide), dget_filter_cons_ne (by decide),
    dget_filter_cons_ne (by decide), dget_filter_cons_ne (by decide),
    List.filter_cons]
  simp [includeKey, Val.isNull, dget]

theorem mem_mkSummary_not_null (d : List (String × Val)) (names : List Val)
    (venuev oav : Val) (fs : Option (List String)) (k : String) (v : Val)
    (h : (k, v) ∈ mkSummary d names venuev oav fs) : v ≠ .null := by
  have := (List.mem_filter.mp h).2
  simp only [Bool.and_eq_true] at this
  intro hv
  rw [hv] at this
  simp [Val.isNull] at this

/-!
Raw items returned by the pyalex client, and `_process_results`
(`server.py` lines 52-101).  A raw item is dict-like data `d` together with
the behaviour of accessing `item["abstract"]` on the original object
(`GenResult`: pyalex may generate an abstract, raise `KeyError`, or raise some
other exception); `conv` is an object that is not a dict but exposes
`to_dict()` (after conversion, plain-dict item access applies); `skip` is a
non-dict item with no conversion path, dropped with a warning.
-/

/-- Outcome of accessing `item["abstract"]` on a raw client object. -/
inductive GenResult where
  | success : Val → GenResult
  | keyError : GenResult
  | genError : String → GenResult
  deriving Repr

/-- A raw result item from the dataset client. -/
inductive RawItem where
  | item : List (String × Val) → GenResult → RawItem
  | conv : List (String × Val) → RawItem
  | skip : RawItem
  deriving Repr

/-- `item["abstract"]` on a plain dict: the stored value, else `KeyError`. -/
def plainGen (d : List (String × Val)) : GenResult :=
  match dget d "abstract" with
  | some v => .success v
  | none => .keyError

/-- The Python value of `generated_abstract` after the guarded access:
`None` (absent) unless generation succeeded with a non-`None` value. -/
def genOut : GenResult → Option Val
  | .success v => if v.isNull then none else some v
  | _ => none

/-- Truthiness of the Python `select_fields` argument (`None` and `[]` are
both falsy). -/
def fieldsTruthy : Option (List String) → Bool
  | none => false
  | some l => !l.isEmpty

/-- The per-item body of `_process_results`: abstract generation is attempted
only when `select_fields is None`; the `abstract` key is forced to exist in
that case; field selection applies only when `select_fields` is truthy. -/
def processItem (fs : Option (List String)) (d : List (String × Val))
    (g : GenResult) : List (String × Val) :=
  let generated := if fs.isNone then genOut g else none
  let dictItem :=
    match generated with
    | some v => dset d "abstract" v
    | none => if fs.isNone && !(hasKey d "abstract") then dset d "abstract" .null else d
  if fieldsTruthy fs then selectFields dictItem (fs.getD []) else dictItem

/-- `server.py` `_process_results`. -/
def processResults (results : List RawItem) (fs : Option (List String)) :
    List (List (String × Val)) :=
  results.filterMap fun it =>
    match it with
    | .skip => none
    | .item d g => some (processItem fs d g)
    | .conv d => some (processItem fs d (plainGen d))

/-!
`get_work_details` (`server.py` lines 299-374).  The client is the pair of
pyalex accesses the operation can make: a full lookup `Works()[id]` (returning
the record's items together with the behaviour of the abstract-generation
access `work_data["abstract"]`), and a projected lookup
`Works().select(fields)[id]`.  A lookup that raises is `.error`; an identifier
that resolves to no record is a lookup returning a falsy (empty) record, which
the code answers with the not-found envelope.
-/

structure WorksClient where
  lookupFull : String → Except String (List (String × Val) × GenResult)
  lookupSelect : List String → String → Except String (List (String × Val))

/-- The `try: work_dict["abstract"] = work_data["abstract"] except ...` block:
on success the generated value is stored, on any exception `None` is stored. -/
def applyGen (d : List (String × Val)) : GenResult → List (String × Val)
  | .success v => dset d "abstract" v
  | .keyError => dset d "abstract" .null
  | .genError _ => dset d "abstract" .null

/-- `list(set(select_fields) | {"id", "doi"})` (order is unspecified in
Python; a fixed order is chosen, which no claim depends on). -/
def querySelect (fields : List String) : List String :=
  fields.dedup ++ (["id", "doi"].filter (fun k => !fields.contains k))

/-- The `try:` body of `get_work_details`. -/
def detailsBody (client : WorksClient) (work_id : String)
    (fs : Option (List String)) : Except String (List (String × Val)) :=
  if !(fieldsTruthy fs) || (fieldsTruthy fs && (fs.getD []).contains "abstract") then
    match client.lookupFull work_id with
    | .error e => .error e
    | .ok (d, g) =>
        if d.isEmpty then .ok [("error", .str ("Work not found: " ++ work_id))]
        else
          let work_dict := applyGen d g
          let final := if fieldsTruthy fs then selectFields work_dict (fs.getD [])
                       else work_dict
          let shouldRemove :=
            hasKey final "abstract" && !(dgetD final "abstract" .null).isNull &&
            hasKey final "abstract_inverted_index" &&
            (!(fieldsTruthy fs) || !((fs.getD []).contains "abstract_inverted_index"))
          .ok (if shouldRemove then ddel final "abstract_inverted_index" else final)
  else
    match client.lookupSelect (querySelect (fs.getD [])) work_id with
    | .error e => .error e
    | .ok d =>
        if d.isEmpty then .ok [("error", .str ("Work not found: " ++ work_id))]
        else .ok d

/-- `server.py` `get_work_details` with its outer exception wrapper. -/
def get_work_details (client : WorksClient) (work_id : String)
    (fs : Option (List String)) : List (String × Val) :=
  match detailsBody client work_id fs with
  | .ok r => r
  | .error e => [("error", .str e)]

/-!
`get_batch_work_details` (`server.py` lines 377-519).
-/

structure BatchClient where
  fetch : Option (List String) → List String → Except String (List RawItem)

/-- `_id.split("/")[-1] if _id.startswith("https://openalex.org/") else _id`. -/
def cleanId (i : String) : String :=
  if i.startsWith "https://openalex.org/" then (i.splitOn "/").getLastD i else i

/-- Computes `(api_select_fields, abstract_requested)`. -/
def batchApiFields (fs : Option (List String)) : Option (List String) × Bool :=
  if fieldsTruthy fs then
    let l := fs.getD []
    let abstractReq := l.contains "abstract"
    let api := l.filter (fun f => !(f == "abstract"))
    let api := if abstractReq && !api.contains "abstract_inverted_index" then
                 api ++ ["abstract_inverted_index"] else api
    let api := if !api.contains "id" then "id" :: api else api
    (some api, abstractReq)
  else (none, false)

/-- Reads an inverted index value as a word-to-positions mapping; `none` means
the Python fallback loop would raise (caught, yielding a null abstract). -/
def parsePositions : List Val → Option (List Nat)
  | [] => some []
  | .nat n :: rest => (parsePositions rest).map (fun l => n :: l)
  | _ => none

def parseEntries : List (String × Val) → Option (List (String × List Nat))
  | [] => some []
  | (w, .arr ps) :: rest =>
      match parsePositions ps with
      | none => none
      | some ps' =>
          match parseEntries rest with
          | none => none
          | some rest' => some ((w, ps') :: rest')
  | _ => none

def parseIndex : Val → Option (List (String × List Nat))
  | .obj entries => parseEntries entries
  | _ => none

/-- The manual fallback: reconstruct from the stored inverted index when the
raw object has no `__getitem__`; any exception yields a null abstract. -/
def batchGenManual (work_dict : List (String × Val)) : Val :=
  let ii := dgetD work_dict "abstract_inverted_index" .null
  if truthy ii then
    match parseIndex ii with
    | some entries => .str (reconstructAbstract entries)
    | none => .null
  else .null

/-- The `if abstract_requested or not select_fields:` block of the batch
loop: attaches `abstract` to the work dict. `g = some _` is the
`hasattr(work, "__getitem__")` path; `g = none` the manual fallback. -/
def batchAbstract (fs : Option (List String)) (abstractReq : Bool)
    (d : List (String × Val)) (g : Option GenResult) : List (String × Val) :=
  if abstractReq || !(fieldsTruthy fs) then
    if hasKey d "abstract_inverted_index" then
      match g with
      | some (.success v) => dset d "abstract" v
      | some .keyError => dset d "abstract" .null
      | some (.genError _) => dset d "abstract" .null
      | none => dset d "abstract" (batchGenManual d)
    else dset d "abstract" .null
  else d

/-- The batch loop's final inverted-index strip: the key is deleted whenever
present unless explicitly requested in `select_fields`. -/
def stripIndex (fs : Option (List String)) (result : List (String × Val)) :
    List (String × Val) :=
  if hasKey result "abstract_inverted_index"
      && !(fieldsTruthy fs && (fs.getD []).contains "abstract_inverted_index") then
    ddel result "abstract_inverted_index"
  else result

/-- Per-record result construction and inverted-index stripping. -/
def batchShape (fs : Option (List String)) (api : Option (List String))
    (abstractReq : Bool) (work_dict : List (String × Val)) : List (String × Val) :=
  stripIndex fs
    (if fieldsTruthy fs then
      (if abstractReq then selectFields work_dict (api.getD [] ++ ["abstract"])
       else selectFields work_dict (api.getD []))
     else work_dict)

/-- The per-`work` loop body (skips non-dict items without conversion). -/
def processBatchItem (fs : Option (List String)) (api : Option (List String))
    (abstractReq : Bool) : RawItem → Option (List (String × Val))
  | .skip => none
  | .item d g => some (batchShape fs api abstractReq (batchAbstract fs abstractReq d (some g)))
  | .conv d => some (batchShape fs api abstractReq (batchAbstract fs abstractReq d none))

/-- `server.py` `get_batch_work_details`. -/
def get_batch_work_details (client : BatchClient) (work_ids : List String)
    (fs : Option (List String)) : List (String × Val) :=
  if work_ids.isEmpty then
    [("error", .str "work_ids list cannot be empty."), ("works", .arr [])]
  else if work_ids.length > 50 then
    [("error", .str "Too many work_ids provided. Maximum is 50."), ("works", .arr [])]
  else
    match client.fetch (batchApiFields fs).1 (work_ids.map cleanId) with
    | .ok results =>
        [("works", .arr ((results.filterMap
          (processBatchItem fs (batchApiFields fs).1 (batchApiFields fs).2)).map Val.obj))]
    | .error e => [("error", .str e), ("works", .arr [])]

/-!
`get_referenced_works` (`server.py` lines 522-550) and `get_work_ngrams`
(`server.py` lines 649-678).
-/

structure RefClient where
  refSelect : String → Except String (List (String × Val))

/-- `server.py` `get_referenced_works`. -/
def get_referenced_works (client : RefClient) (work_id : String) :
    List (String × Val) :=
  match client.refSelect (cleanId work_id) with
  | .ok d => [("referenced_work_ids", dgetD d "referenced_works" (.arr []))]
  | .error e => [("error", .str e), ("referenced_work_ids", .arr [])]

/-- Failures of the n-gram fetch: an HTTP 404 is distinguished by the handler. -/
inductive HttpFailure where
  | notFound : HttpFailure
  | other : String → HttpFailure
  deriving Repr

structure NgramClient where
  ngrams : String → Except HttpFailure (List (String × Val))

/-- `server.py` `get_work_ngrams`. -/
def get_work_ngrams (client : NgramClient) (work_id : String) :
    List (String × Val) :=
  let wid := cleanId work_id
  match client.ngrams wid with
  | .ok d => d
  | .error .notFound => [("error", .str ("N-grams not found for work ID " ++ wid ++ "."))]
  | .error (.other e) => [("error", .str e)]

/-!
`search_works` (`server.py` lines 152-297) and `get_citing_works`
(`server.py` lines 551-648).  Query construction (search text, filters, sort,
field pushdown) is delegated to the external client and folded into the
abstract `paginate` call; `pushed` records which field selection, if any, the
code pushes down.  `PageOutcome.stop` is `next(pager)` raising
`StopIteration`; a page whose `meta` is absent leaves `metadata = {}` (the
internal `_get_meta` fallback does not apply to these query objects).
-/

inductive PageOutcome where
  | stop : PageOutcome
  | page : List RawItem → Option (List (String × Val)) → PageOutcome

structure PageClient where
  count : Except String Nat
  paginate : Option (List String) → Nat → Option String → Except String PageOutcome

def validSearchFields : List String :=
  ["title", "abstract", "fulltext", "title_and_abstract", "display_name"]

/-- The synthesized metadata after `StopIteration`. -/
def stopMeta (per_page : Nat) : List (String × Val) :=
  [("count", .nat 0), ("page", .nat 1), ("per_page", .nat per_page),
   ("next_cursor", .null)]

/-- The response `meta` block. -/
def metaBlock (metadata : List (String × Val)) (per_page : Nat) : Val :=
  .obj [("count", dgetD metadata "count" .null),
        ("per_page", dgetD metadata "per_page" (.nat per_page)),
        ("next_cursor", dgetD metadata "next_cursor" .null)]

/-- The page envelope `{"results": ..., "meta": ...}`. -/
def pageEnvelope (per_page : Nat)
    (p : List (List (String × Val)) × List (String × Val)) :
    List (String × Val) :=
  [("results", .arr (p.1.map Val.obj)), ("meta", metaBlock p.2 per_page)]

/-- The `try:` body of `search_works` up to envelope construction: yields the
final (possibly summarized) results and the pagination metadata. -/
def searchCore (client : PageClient) (search_query search_field : String)
    (select_fields : Option (List String)) (summarize_results : Bool)
    (per_page : Nat) (cursor : Option String) :
    Except String (List (List (String × Val)) × List (String × Val)) :=
  if search_field = "default" ∨ validSearchFields.contains search_field then
    match client.count with
    | .error e => .error e
    | .ok _ =>
        match client.paginate
            (if !summarize_results && fieldsTruthy select_fields then
              some (select_fields.getD []) else none) per_page cursor with
        | .error e => .error e
        | .ok pg =>
            let items := match pg with | .stop => [] | .page its _ => its
            let metadata := match pg with
              | .stop => stopMeta per_page
              | .page _ m => m.getD []
            let processed := processResults items none
            match (if summarize_results then
                     mapME (fun it => summarizeWork it select_fields) processed
                   else .ok processed) with
            | .error e => .error e
            | .ok finalResults => .ok (finalResults, metadata)
  else .error ("Invalid search_field: " ++ search_field)

/-- The `try:` body of `search_works`. -/
def searchBody (client : PageClient) (search_query search_field : String)
    (select_fields : Option (List String)) (summarize_results : Bool)
    (per_page : Nat) (cursor : Option String) :
    Except String (List (String × Val)) :=
  (searchCore client search_query search_field select_fields summarize_results
    per_page cursor).map (pageEnvelope per_page)

/-- `server.py` `search_works`. -/
def search_works (client : PageClient) (search_query search_field : String)
    (select_fields : Option (List String)) (summarize_results : Bool)
    (per_page : Nat) (cursor : Option String) : List (String × Val) :=
  match searchBody client search_query search_field select_fields
      summarize_results per_page cursor with
  | .ok r => r
  | .error e => [("error", .str e), ("results", .arr []), ("meta", .obj [])]

def defaultSummaryFields : List String :=
  ["id", "doi", "title", "publication_year", "authorships", "cited_by_count",
   "primary_location", "open_access", "abstract"]

/-- The field selection pushed to the client by `get_citing_works`: the given
fields when summarization is off and fields are given, the fixed default set
when summarization is off and no fields are given, none otherwise. -/
def citingPushed (select_fields : Option (List String))
    (summarize_results : Bool) : Option (List String) :=
  if !summarize_results && fieldsTruthy select_fields then
    some (select_fields.getD [])
  else if !summarize_results && !(fieldsTruthy select_fields) then
    some defaultSummaryFields
  else none

/-- The `try:` body of `get_citing_works` up to envelope construction. -/
def citingCore (client : PageClient) (work_id : String)
    (select_fields : Option (List String)) (summarize_results : Bool)
    (per_page : Nat) (cursor : Option String) :
    Except String (List (List (String × Val)) × List (String × Val)) :=
  match client.paginate (citingPushed select_fields summarize_results)
      per_page cursor with
  | .error e => .error e
  | .ok pg =>
      let items := match pg with | .stop => [] | .page its _ => its
      let metadata := match pg with
        | .stop => stopMeta per_page
        | .page _ m => m.getD []
      let processed := processResults items
        (if summarize_results then none else select_fields)
      match (if summarize_results then
               mapME (fun it => summarizeWork it select_fields) processed
             else .ok processed) with
      | .error e => .error e
      | .ok finalResults => .ok (finalResults, metadata)

/-- The `try:` body of `get_citing_works` (the identifier's URL prefix is
stripped first, then folded into the client's bound query). -/
def citingBody (client : PageClient) (work_id : String)
    (select_fields : Option (List String)) (summarize_results : Bool)
    (per_page : Nat) (cursor : Option String) :
    Except String (List (String × Val)) :=
  (citingCore client (cleanId work_id) select_fields summarize_results
    per_page cursor).map (pageEnvelope per_page)

/-- `server.py` `get_citing_works`. -/
def get_citing_works (client : PageClient) (work_id : String)
    (select_fields : Option (List String)) (summarize_results : Bool)
    (per_page : Nat) (cursor : Option String) : List (String × Val) :=
  match citingBody client work_id select_fields summarize_results per_page cursor with
  | .ok r => r
  | .error e => [("error", .str e), ("results", .arr []), ("meta", .obj [])]

end OpenAlex

namespace OpenAlex

/-- C3: for every record `r` and non-empty requested-field list `fs`, the field
selector keeps exactly the keys of `r` lying in `fs ∪ {id, doi}`, each mapped
to its value in `r`; in particular `id` and `doi` survive even when absent from
`fs`, as in the concrete example of the claim. -/
theorem select_fields_spec (r : List (String × Val)) (fs : List String) (hfs : fs ≠ []) :
    (∀ k, keepField fs k = true ↔ (k ∈ fs ∨ k = "id" ∨ k = "doi")) ∧
    (∀ k, dget (selectFields r fs) k =
        if keepField fs k then dget r k else none) ∧
    (∀ k v, (k, v) ∈ selectFields r fs ↔
        ((k, v) ∈ r ∧ keepField fs k = true)) ∧
    selectFields [("id", .str "W1"), ("doi", .str "D1"), ("title", .str "T"),
        ("year", .nat 2020)] ["title"]
      = [("id", .str "W1"), ("doi", .str "D1"), ("title", .str "T")] := by
  refine ⟨fun k => by simp [keepField, or_assoc], fun k => dget_selectFields r fs k,
    fun k v => ?_, rfl⟩
  simp [selectFields, List.mem_filter]

/-- Witness for C3 at a concrete record and a concrete non-empty field list. -/
theorem select_fields_spec_witness :
    dget (selectFields [("id", Val.str "W1"), ("title", Val.str "T")] ["title"]) "title"
      = some (Val.str "T") := by
  have h := (select_fields_spec [("id", Val.str "W1"), ("title", Val.str "T")] ["title"]
    (by decide)).2.1 "title"
  rw [h]
  rfl

/-- C2: for every inverted index whose position lists cover positions
injectively, the reconstruction yields the word array joined by single spaces,
where each indexed word sits at each of its recorded zero-based positions and
every unclaimed position is the empty token; the index
`[("the", [0]), ("cat", [1]), ("sat", [2])]` reconstructs to `"the cat sat"`. -/
theorem abstract_reconstruction_roundtrip (index : List (String × List Nat))
    (hinj : coversInjectively index) :
    (∀ w ps, (w, ps) ∈ index → ∀ p ∈ ps, (reconstructWords index).getD p "" = w) ∧
    (∀ p, (∀ w ps, (w, ps) ∈ index → p ∉ ps) → (reconstructWords index).getD p "" = "") ∧
    reconstructAbstract index = String.intercalate " " (reconstructWords index) ∧
    reconstructAbstract [("the", [0]), ("cat", [1]), ("sat", [2])] = "the cat sat" := by
  refine ⟨?_, ?_, rfl, rfl⟩
  · intro w ps hmem p hp
    rw [reconstructWords_eq]
    refine applyWrites_getD_of_written [] (indexWrites index) p w ?_
      ⟨(w, p), mem_indexWrites index w ps p hmem hp, rfl⟩
    intro wp hwp hq
    obtain ⟨e, he, hfst, hsnd⟩ := indexWrites_mem index wp hwp
    rw [hfst]
    exact hinj e he (w, ps) hmem wp.2 hsnd (hq ▸ hp)
  · intro p hnone
    rw [reconstructWords_eq,
      applyWrites_getD_of_not_written [] (indexWrites index) p ?_, List.getD_nil]
    intro wp hwp hq
    obtain ⟨e, he, _, hsnd⟩ := indexWrites_mem index wp hwp
    exact hnone e.1 e.2 (by simpa using he) (hq ▸ hsnd)

/-- Witness for C2 at the claim's concrete index: the injectivity hypothesis is
discharged by computation and the recorded positions are checked. -/
theorem abstract_reconstruction_roundtrip_witness :
    (reconstructWords [("the", [0]), ("cat", [1]), ("sat", [2])]).getD 1 "" = "cat" :=
  (abstract_reconstruction_roundtrip [("the", [0]), ("cat", [1]), ("sat", [2])]
    (by decide)).1 "cat" [1] (by decide) 1 (by decide)

/-- An authorship record carrying a display name, for concrete instances. -/
def authObj (s : String) : Val :=
  .obj [("author", .obj [("display_name", .str s)])]

/-- A record with ten named authorships. -/
def tenAuths : List Val :=
  [authObj "A1", authObj "A2", authObj "A3", authObj "A4", authObj "A5",
   authObj "A6", authObj "A7", authObj "A8", authObj "A9", authObj "A10"]

/-- C4: when a normalized record's authorships are the list `l` and the
summarizer succeeds with no field selection, the summary's `authors` value is
the list of the truthy author display names of `l` in original order (non-named
authorships skipped via `filter`, no placeholders inserted) truncated to at
most 6 entries; if every one of 10 authorships has a display name the value is
exactly the first 6 names in original order. -/
theorem summarize_authors_spec (d : List (String × Val)) (l : List Val)
    (out : List (String × Val))
    (hl : dgetD d "authorships" (.arr []) = .arr l)
    (hout : summarizeWork d none = .ok out) :
    ∃ raw,
      mapME authorName l = .ok raw ∧
      dget out "authors" = some (.arr ((raw.filter truthy).take 6)) ∧
      ((raw.filter truthy).take 6).length ≤ 6 ∧
      ((∀ a ∈ l, ∃ n, authorName a = .ok n ∧ truthy n = true) → l.length = 10 →
        (raw.filter truthy).take 6 = raw.take 6 ∧
        ((raw.filter truthy).take 6).length = 6) := by
  obtain ⟨auths, names, venuev, oav, hpy, hcn, hout'⟩ :=
    summarizeWork_ok_elim d none out hout
  rw [hl] at hpy
  simp only [pyIter, Except.ok.injEq] at hpy
  subst hpy
  obtain ⟨raw, hraw, hfil⟩ := collectNames_eq l names hcn
  refine ⟨raw, hraw, ?_, ?_, ?_⟩
  · rw [hout', dget_mkSummary_authors, hfil]
  · rw [List.length_take]
    exact min_le_left _ _
  · intro hall hlen
    have hmem := mapME_ok_mem authorName l raw hraw
    have hfr : raw.filter truthy = raw := by
      apply List.filter_eq_self.mpr
      intro b hb
      obtain ⟨a, ha, hfa⟩ := hmem b hb
      obtain ⟨n, hn, ht⟩ := hall a ha
      rw [hfa] at hn
      injection hn with hn
      rwa [hn]
    have hrl : raw.length = 10 := by
      rw [mapME_ok_length authorName l raw hraw, hlen]
    constructor
    · rw [hfr]
    · rw [hfr, List.length_take, hrl]
      rfl

/-- Witness for C4: a concrete record with ten named authorships; the
summarizer caps the summary at the first six names. -/
theorem summarize_authors_spec_witness :
    ∃ raw,
      mapME authorName tenAuths = .ok raw ∧
      dget [("authors", Val.arr [.str "A1", .str "A2", .str "A3", .str "A4",
          .str "A5", .str "A6"])] "authors"
        = some (.arr ((raw.filter truthy).take 6)) ∧
      ((raw.filter truthy).take 6).length ≤ 6 ∧
      ((∀ a ∈ tenAuths, ∃ n, authorName a = .ok n ∧ truthy n = true) →
        tenAuths.length = 10 →
        (raw.filter truthy).take 6 = raw.take 6 ∧
        ((raw.filter truthy).take 6).length = 6) :=
  summarize_authors_spec [("authorships", .arr tenAuths)] tenAuths
    [("authors", Val.arr [.str "A1", .str "A2", .str "A3", .str "A4",
        .str "A5", .str "A6"])] rfl rfl

/-- C5: every key of a summary produced by the summarizer maps to a non-null
value, for every record and every supplied or omitted requested-field list;
concretely, a record lacking a venue yields a summary with no `venue` key. -/
theorem summary_omits_null (d : List (String × Val)) (fs : Option (List String))
    (out : List (String × Val)) (h : summarizeWork d fs = .ok out) :
    (∀ k v, (k, v) ∈ out → v ≠ .null) ∧
    (summarizeWork [("id", .str "W1"), ("title", .str "T")] none
        = .ok [("id", .str "W1"), ("title", .str "T"), ("authors", .arr [])] ∧
      dget [("id", Val.str "W1"), ("title", Val.str "T"),
        ("authors", Val.arr [])] "venue" = none) := by
  obtain ⟨auths, names, venuev, oav, _, _, hout'⟩ := summarizeWork_ok_elim d fs out h
  refine ⟨?_, rfl, rfl⟩
  intro k v hv
  rw [hout'] at hv
  exact mem_mkSummary_not_null d names venuev oav fs k v hv

/-- Witness for C5 at a concrete record lacking a venue: the concrete summary
key `id` maps to a non-null value. -/
theorem summary_omits_null_witness : Val.str "W1" ≠ Val.null :=
  (summary_omits_null [("id", .str "W1"), ("title", .str "T")] none
    [("id", .str "W1"), ("title", .str "T"), ("authors", .arr [])] rfl).1
    "id" (Val.str "W1") (List.mem_cons_self _ _)

/-- C6: `get_batch_work_details` rejects an empty list and a list of more than
50 identifiers with the validation envelope `{"error": ..., "works": []}`
without depending on the dataset client; for 1 to 50 identifiers no such
validation error occurs — the output carries no `error` key at all unless the
client call itself raised, in which case the error is the client's message. -/
theorem batch_validation (client : BatchClient) (fs : Option (List String)) :
    (get_batch_work_details client [] fs
        = [("error", .str "work_ids list cannot be empty."), ("works", .arr [])]) ∧
    (∀ ids : List String, ids.length > 50 →
        get_batch_work_details client ids fs
          = [("error", .str "Too many work_ids provided. Maximum is 50."),
             ("works", .arr [])]) ∧
    (∀ ids : List String, 1 ≤ ids.length → ids.length ≤ 50 →
        dget (get_batch_work_details client ids fs) "error" = none ∨
        ∃ e, client.fetch (batchApiFields fs).1 (ids.map cleanId) = .error e ∧
          get_batch_work_details client ids fs
            = [("error", .str e), ("works", .arr [])]) := by
  refine ⟨rfl, ?_, ?_⟩
  · intro ids hlen
    have h1 : ids.isEmpty = false := by
      cases ids with
      | nil => simp at hlen
      | cons a l => rfl
    unfold get_batch_work_details
    simp [h1, hlen]
  · intro ids h1 h50
    have he : ids.isEmpty = false := by
      cases ids with
      | nil => simp at h1
      | cons a l => rfl
    have hn : ¬(ids.length > 50) := by omega
    unfold get_batch_work_details
    simp only [he, Bool.false_eq_true, if_false, hn]
    cases hf : client.fetch (batchApiFields fs).1 (ids.map cleanId) with
    | ok results => left; rfl
    | error e => right; exact ⟨e, rfl, rfl⟩

/-- Witness for C6: 51 identifiers are rejected with the validation envelope. -/
theorem batch_validation_witness :
    get_batch_work_details ⟨fun _ _ => .ok []⟩ (List.replicate 51 "W") none
      = [("error", .str "Too many work_ids provided. Maximum is 50."),
         ("works", .arr [])] :=
  (batch_validation ⟨fun _ _ => .ok []⟩ none).2.1 (List.replicate 51 "W") (by simp)

/-- C7: when the identifier resolves to no record (the client lookup yields a
falsy, empty record on either access path), `get_work_details` returns exactly
the single-key mapping `{"error": "Work not found: <id>"}`. -/
theorem details_not_found (client : WorksClient) (work_id : String)
    (fs : Option (List String)) (g : GenResult)
    (hfull : client.lookupFull work_id = .ok ([], g))
    (hsel : ∀ sel, client.lookupSelect sel work_id = .ok []) :
    get_work_details client work_id fs
      = [("error", .str ("Work not found: " ++ work_id))] := by
  have hbody : detailsBody client work_id fs
      = .ok [("error", .str ("Work not found: " ++ work_id))] := by
    unfold detailsBody
    split
    · rw [hfull]
      rfl
    · rw [hsel (querySelect (fs.getD []))]
      rfl
  unfold get_work_details
  rw [hbody]

/-- Witness for C7 with a concrete client resolving no identifier. -/
theorem details_not_found_witness :
    get_work_details ⟨fun _ => .ok ([], .keyError), fun _ _ => .ok []⟩ "W77" none
      = [("error", .str "Work not found: W77")] :=
  details_not_found ⟨fun _ => .ok ([], .keyError), fun _ _ => .ok []⟩ "W77" none
    .keyError rfl (fun _ => rfl)

/-- C8: an empty `select_fields` list behaves exactly as an omitted one in
`get_work_details`; `_process_results` with an empty selection appends each
item's full dict unprojected (never reduced to `id`/`doi` only); and for a
record carrying no inverted index the empty-selection result is the full
record with the abstract field attached. -/
theorem empty_select_is_omitted :
    (∀ (client : WorksClient) (work_id : String),
        get_work_details client work_id (some [])
          = get_work_details client work_id none) ∧
    (∀ results : List RawItem,
        processResults results (some []) = results.filterMap (fun it =>
          match it with
          | .skip => none
          | .item d _ => some d
          | .conv d => some d)) ∧
    (∀ (client : WorksClient) (work_id : String) (d : List (String × Val))
        (g : GenResult),
        client.lookupFull work_id = .ok (d, g) → d.isEmpty = false →
        hasKey (applyGen d g) "abstract_inverted_index" = false →
        get_work_details client work_id (some []) = applyGen d g) := by
  refine ⟨fun client work_id => rfl, ?_, ?_⟩
  · intro results
    induction results with
    | nil => rfl
    | cons hd tl ih =>
        cases hd with
        | item d g =>
            simp only [processResults, List.filterMap_cons] at ih ⊢
            rw [ih]
            rfl
        | conv d =>
            simp only [processResults, List.filterMap_cons] at ih ⊢
            rw [ih]
            rfl
        | skip =>
            simp only [processResults, List.filterMap_cons] at ih ⊢
            exact ih
  · intro client work_id d g hfull hne hidx
    unfold get_work_details detailsBody
    rw [hfull]
    simp only [fieldsTruthy, List.isEmpty_nil, Bool.not_true, Bool.false_and,
      Bool.not_false, Bool.true_or, if_true, hne, Bool.false_eq_true, if_false,
      Option.getD]
    rw [hidx]
    simp

/-- Witness for C8 at a concrete client whose record has no inverted index. -/
theorem empty_select_is_omitted_witness :
    get_work_details ⟨fun _ => .ok ([("id", .str "W1")], .keyError),
        fun _ _ => .ok []⟩ "W1" (some [])
      = applyGen [("id", .str "W1")] .keyError :=
  empty_select_is_omitted.2.2 ⟨fun _ => .ok ([("id", .str "W1")], .keyError),
    fun _ _ => .ok []⟩ "W1" [("id", .str "W1")] .keyError rfl rfl rfl

/-- A client whose fetched record stores `referenced_works: null`. -/
def nullRefClient : RefClient :=
  ⟨fun _ => .ok [("referenced_works", .null)]⟩

/-- C9 counterexample: when the fetched record's `referenced_works` field is
present with value null, `get_referenced_works` returns
`{"referenced_work_ids": null}` — the value is null, not a list, refuting the
claim that the result is never null even when the stored field is null
(`work_data.get("referenced_works", [])` only substitutes the default for an
absent key, not for a stored `None`). -/
theorem referenced_null_counterexample :
    get_referenced_works nullRefClient "W1"
        = [("referenced_work_ids", Val.null)] ∧
      Val.null ≠ Val.arr [] :=
  ⟨rfl, by simp⟩

/-- C9 (amended): on a successful fetch, `get_referenced_works` returns
`{"referenced_work_ids": l}` where `l` is the empty list when the record has
no `referenced_works` key, and the stored value unchanged — including null —
when the key is present. -/
theorem referenced_works_amended (client : RefClient) (work_id : String)
    (d : List (String × Val)) (h : client.refSelect (cleanId work_id) = .ok d) :
    (dget d "referenced_works" = none →
      get_referenced_works client work_id = [("referenced_work_ids", .arr [])]) ∧
    (∀ v, dget d "referenced_works" = some v →
      get_referenced_works client work_id = [("referenced_work_ids", v)]) := by
  constructor
  · intro habs
    simp [get_referenced_works, h, dgetD, habs]
  · intro v hv
    simp [get_referenced_works, h, dgetD, hv]

/-- Witness for the amended C9 at a record lacking the field. -/
theorem referenced_works_amended_witness :
    get_referenced_works ⟨fun _ => .ok [("id", .str "W1")]⟩ "W9"
      = [("referenced_work_ids", .arr [])] :=
  (referenced_works_amended ⟨fun _ => .ok [("id", .str "W1")]⟩ "W9"
    [("id", .str "W1")] rfl).1 rfl

theorem applyGen_eq_dset (d : List (String × Val)) (g : GenResult) :
    ∃ v, applyGen d g = dset d "abstract" v := by
  cases g with
  | success v => exact ⟨v, rfl⟩
  | keyError => exact ⟨.null, rfl⟩
  | genError e => exact ⟨.null, rfl⟩

theorem dget_stripIndex (fs : Option (List String)) (result : List (String × Val))
    (h : (fieldsTruthy fs && (fs.getD []).contains "abstract_inverted_index") = false) :
    dget (stripIndex fs result) "abstract_inverted_index" = none := by
  unfold stripIndex
  simp only [h, Bool.not_false, Bool.and_true]
  split
  · exact dget_ddel_self _ _
  · rename_i hk
    rw [Bool.not_eq_true] at hk
    unfold hasKey at hk
    exact Option.not_isSome_iff_eq_none.mp (by rw [hk]; simp)

theorem dget_batchShape_index (fs api : Option (List String)) (ar : Bool)
    (wd : List (String × Val))
    (h : (fieldsTruthy fs && (fs.getD []).contains "abstract_inverted_index") = false) :
    dget (batchShape fs api ar wd) "abstract_inverted_index" = none :=
  dget_stripIndex fs _ h

/-- C10: `get_batch_work_details` strips `abstract_inverted_index` from every
returned record unless that key is explicitly listed in `select_fields`
(including when `select_fields` is omitted, and regardless of whether abstract
generation succeeded), whereas `get_work_details` strips the index only when
the resolved abstract is non-null: with a null abstract the stored index
survives, and with a non-null abstract the output never carries the index. -/
theorem batch_strips_inverted_index :
    (∀ (client : BatchClient) (ids : List String) (fs : Option (List String)),
        (fieldsTruthy fs && (fs.getD []).contains "abstract_inverted_index") = false →
        ∀ ws, dget (get_batch_work_details client ids fs) "works" = some (.arr ws) →
        ∀ v ∈ ws, ∀ d', v = .obj d' →
          dget d' "abstract_inverted_index" = none) ∧
    (∀ (client : WorksClient) (work_id : String) (d : List (String × Val))
        (g : GenResult),
        client.lookupFull work_id = .ok (d, g) → d.isEmpty = false →
        ((dgetD (applyGen d g) "abstract" .null).isNull = true →
          dget (get_work_details client work_id none) "abstract_inverted_index"
            = dget d "abstract_inverted_index") ∧
        ((dgetD (applyGen d g) "abstract" .null).isNull = false →
          dget (get_work_details client work_id none) "abstract_inverted_index"
            = none)) := by
  constructor
  · intro client ids fs hreq ws hws v hv d' hvd
    subst hvd
    unfold get_batch_work_details at hws
    split at hws
    · simp only [dget, reduceIte] at hws
      injection hws with hws
      injection hws with hws
      rw [← hws] at hv
      exact absurd hv (List.not_mem_nil _)
    · split at hws
      · simp only [dget, reduceIte] at hws
        injection hws with hws
        injection hws with hws
        rw [← hws] at hv
        exact absurd hv (List.not_mem_nil _)
      · split at hws
        · rename_i results hfetch
          simp only [dget, reduceIte] at hws
          injection hws with hws
          injection hws with hws
          rw [← hws] at hv
          obtain ⟨r, hr, hre⟩ := List.mem_map.mp hv
          obtain ⟨raw, hraw, hpr⟩ := List.mem_filterMap.mp hr
          injection hre with hre
          rw [← hre]
          cases raw with
          | skip => simp [processBatchItem] at hpr
          | item d0 g0 =>
              simp only [processBatchItem, Option.some.injEq] at hpr
              rw [← hpr]
              exact dget_batchShape_index fs _ _ _ hreq
          | conv d0 =>
              simp only [processBatchItem, Option.some.injEq] at hpr
              rw [← hpr]
              exact dget_batchShape_index fs _ _ _ hreq
        · rename_i e hfetch
          simp only [dget, reduceIte] at hws
          injection hws with hws
          injection hws with hws
          rw [← hws] at hv
          exact absurd hv (List.not_mem_nil _)
  · intro client work_id d g hfull hne
    have hout : get_work_details client work_id none
        = (if (hasKey (applyGen d g) "abstract"
                && !(dgetD (applyGen d g) "abstract" .null).isNull
                && hasKey (applyGen d g) "abstract_inverted_index") = true then
             ddel (applyGen d g) "abstract_inverted_index"
           else applyGen d g) := by
      unfold get_work_details detailsBody
      rw [hfull]
      simp [hne, fieldsTruthy]
    constructor
    · intro hnull
      rw [hout, hnull]
      simp only [Bool.not_true, Bool.and_false, Bool.false_and,
        Bool.false_eq_true, if_false]
      obtain ⟨v, hv⟩ := applyGen_eq_dset d g
      rw [hv]
      exact dget_dset_ne d "abstract" "abstract_inverted_index" v (by decide)
    · intro hnn
      rw [hout, hnn]
      obtain ⟨v, hv⟩ := applyGen_eq_dset d g
      have habs : hasKey (applyGen d g) "abstract" = true := by
        rw [hv]
        unfold hasKey
        rw [dget_dset_self]
        rfl
      rw [habs]
      simp only [Bool.not_false, Bool.true_and, Bool.and_true]
      by_cases hk : hasKey (applyGen d g) "abstract_inverted_index" = true
      · rw [hk]
        simp only [if_true]
        exact dget_ddel_self _ _
      · rw [Bool.not_eq_true] at hk
        rw [hk]
        simp only [Bool.false_eq_true, if_false]
        unfold hasKey at hk
        exact Option.not_isSome_iff_eq_none.mp (by rw [hk]; simp)

/-- A batch client returning one record that carries an inverted index. -/
def idxBatchClient : BatchClient :=
  ⟨fun _ _ => .ok [.item [("id", .str "W1"),
    ("abstract_inverted_index", .obj [("hi", .arr [.nat 0])])] .keyError]⟩

/-- Witness for C10: with `select_fields` omitted and abstract generation
failing, the batch output record has lost its inverted index. -/
theorem batch_strips_inverted_index_witness :
    dget [("id", Val.str "W1"), ("abstract", Val.null)] "abstract_inverted_index"
      = none :=
  batch_strips_inverted_index.1 idxBatchClient ["W1"] none rfl
    [Val.obj [("id", Val.str "W1"), ("abstract", Val.null)]] rfl
    (Val.obj [("id", Val.str "W1"), ("abstract", Val.null)])
    (List.mem_singleton.mpr rfl)
    [("id", Val.str "W1"), ("abstract", Val.null)] rfl

theorem exceptMap_ok {α β : Type} (f : α → β) (x : Except String α) (r : β)
    (h : x.map f = .ok r) : ∃ y, x = .ok y ∧ r = f y := by
  cases x with
  | error e => simp [Except.map] at h
  | ok y =>
      simp only [Except.map, Except.ok.injEq] at h
      exact ⟨y, rfl, h.symm⟩

theorem searchBody_ok_shape (c : PageClient) (sq sf : String)
    (sel : Option (List String)) (sm : Bool) (pp : Nat) (cur : Option String)
    (r : List (String × Val))
    (h : searchBody c sq sf sel sm pp cur = .ok r) :
    ∃ a b, r = [("results", a), ("meta", b)] := by
  obtain ⟨y, _, hr⟩ := exceptMap_ok _ _ r h
  exact ⟨_, _, by rw [hr]; rfl⟩

theorem citingBody_ok_shape (c : PageClient) (wid : String)
    (sel : Option (List String)) (sm : Bool) (pp : Nat) (cur : Option String)
    (r : List (String × Val))
    (h : citingBody c wid sel sm pp cur = .ok r) :
    ∃ a b, r = [("results", a), ("meta", b)] := by
  obtain ⟨y, _, hr⟩ := exceptMap_ok _ _ r h
  exact ⟨_, _, by rw [hr]; rfl⟩

/-- A dataset client whose every call raises with message `e`. -/
def throwPage (e : String) : PageClient :=
  ⟨.error e, fun _ _ _ => .error e⟩

/-- A work-details client whose every call raises with message `e`. -/
def throwWorks (e : String) : WorksClient :=
  ⟨fun _ => .error e, fun _ _ => .error e⟩

/-- An n-gram client whose every call raises with failure `f`. -/
def throwNgrams (f : HttpFailure) : NgramClient :=
  ⟨fun _ => .error f⟩

/-- C1: every operation is a total function into a mapping for every input
and every client behaviour, raising included.  Whenever an output of
`search_works`, `get_citing_works`, `get_batch_work_details` or
`get_referenced_works` carries an `error` key it is exactly the failure
envelope with empty placeholder values for that operation's normal result
keys; `get_work_details` and `get_work_ngrams` (whose result is the record
itself, with no fixed result keys) answer a raising client with the
single-key error mapping. -/
theorem error_envelope_spec :
    (∀ (c : PageClient) (sq sf : String) (sel : Option (List String)) (sm : Bool)
        (pp : Nat) (cur : Option String),
        (dget (search_works c sq sf sel sm pp cur) "error").isSome = true →
        ∃ m, search_works c sq sf sel sm pp cur
          = [("error", .str m), ("results", .arr []), ("meta", .obj [])]) ∧
    (∀ (c : PageClient) (wid : String) (sel : Option (List String)) (sm : Bool)
        (pp : Nat) (cur : Option String),
        (dget (get_citing_works c wid sel sm pp cur) "error").isSome = true →
        ∃ m, get_citing_works c wid sel sm pp cur
          = [("error", .str m), ("results", .arr []), ("meta", .obj [])]) ∧
    (∀ (c : BatchClient) (ids : List String) (sel : Option (List String)),
        (dget (get_batch_work_details c ids sel) "error").isSome = true →
        ∃ m, get_batch_work_details c ids sel
          = [("error", .str m), ("works", .arr [])]) ∧
    (∀ (c : RefClient) (wid : String),
        (dget (get_referenced_works c wid) "error").isSome = true →
        ∃ m, get_referenced_works c wid
          = [("error", .str m), ("referenced_work_ids", .arr [])]) ∧
    (∀ (wid : String) (sel : Option (List String)) (e : String),
        get_work_details (throwWorks e) wid sel = [("error", .str e)]) ∧
    (∀ (wid e : String),
        get_work_ngrams (throwNgrams (.other e)) wid = [("error", .str e)]) := by
  refine ⟨?_, ?_, ?_, ?_, ?_, ?_⟩
  · intro c sq sf sel sm pp cur herr
    unfold search_works at herr ⊢
    cases hb : searchBody c sq sf sel sm pp cur with
    | ok r =>
        rw [hb] at herr
        obtain ⟨a, b, hr⟩ := searchBody_ok_shape c sq sf sel sm pp cur r hb
        rw [hr] at herr
        simp [dget] at herr
    | error e => exact ⟨e, rfl⟩
  · intro c wid sel sm pp cur herr
    unfold get_citing_works at herr ⊢
    cases hb : citingBody c wid sel sm pp cur with
    | ok r =>
        rw [hb] at herr
        obtain ⟨a, b, hr⟩ := citingBody_ok_shape c wid sel sm pp cur r hb
        rw [hr] at herr
        simp [dget] at herr
    | error e => exact ⟨e, rfl⟩
  · intro c ids sel herr
    unfold get_batch_work_details at herr ⊢
    by_cases h1 : ids.isEmpty = true
    · simp only [h1, if_true] at herr ⊢
      exact ⟨_, rfl⟩
    · rw [if_neg h1] at herr ⊢
      by_cases h2 : ids.length > 50
      · rw [if_pos h2] at herr ⊢
        exact ⟨_, rfl⟩
      · rw [if_neg h2] at herr ⊢
        cases hf : c.fetch (batchApiFields sel).1 (ids.map cleanId) with
        | ok results =>
            rw [hf] at herr
            simp [dget] at herr
        | error e => exact ⟨e, rfl⟩
  · intro c wid herr
    unfold get_referenced_works at herr ⊢
    cases hb : c.refSelect (cleanId wid) with
    | ok d =>
        rw [hb] at herr
        simp [dget] at herr
    | error e => exact ⟨e, rfl⟩
  · intro wid sel e
    unfold get_work_details detailsBody
    by_cases hb : (!(fieldsTruthy sel)
        || (fieldsTruthy sel && (sel.getD []).contains "abstract")) = true
    · rw [if_pos hb]
      rfl
    · rw [if_neg hb]
      rfl
  · intro wid e
    rfl

/-- Witness for C1: a raising client produces the failure envelope with the
empty placeholders. -/
theorem error_envelope_spec_witness :
    ∃ m, search_works (throwPage "boom") "q" "default" none true 25 (some "*")
      = [("error", .str m), ("results", .arr []), ("meta", .obj [])] :=
  error_envelope_spec.1 (throwPage "boom") "q" "default" none true 25 (some "*") rfl

end OpenAlex
